import Mathlib

/-
Verification development for the `ra_editor` typing assists
(`crates/ra_editor/src/typing.rs`): `join_lines`, `on_enter`,
`on_eq_typed` and their helpers `remove_newline`, `node_indent`,
`join_single_expr_block`, `single_expr`, `is_trailing_comma`,
`compute_ws`.

The syntax tree, text ranges, the edit accumulator and the `ra_syntax`
algorithms (`find_leaf_at_offset`, `find_covering_node`,
`find_node_at_offset`) are external collaborators of the file under
study; they are modelled here from the specification's data model.
Text is modelled as a list of characters and offsets as natural
numbers (the sources under study use byte offsets; on ASCII text the
two coincide and every example below is ASCII).

Rust panics (`unwrap` on a missing sibling, reversed-range slicing,
failed assertions) have no return value; functions that can panic are
modelled with an `Option` result where `none` means the function does
not return normally.
-/

namespace RaTyping

abbrev Text := List Char

/-- Coerce a string literal to the character-list text representation. -/
def str (s : String) : Text := s.data

/-- Modelled from the spec: the set of syntactic node kinds is a fixed
external enumeration; these are the kinds the typing assists inspect,
plus representative expression kinds and an `OTHER` catch-all. -/
inductive SyntaxKind where
  | WHITESPACE | COMMENT | COMMA | SEMI | DOT | EQ
  | L_PAREN | R_PAREN | L_BRACK | R_BRACK | L_CURLY | R_CURLY
  | LET_STMT | BLOCK | BLOCK_EXPR
  | LITERAL | BIN_EXPR | CALL_EXPR | PATH_EXPR
  | IDENT | ROOT | FN_DEF | OTHER
deriving DecidableEq

/-- Kinds on which `ast::Expr::cast` succeeds (expression nodes). -/
def isExprKind : SyntaxKind → Bool
  | .LITERAL | .BIN_EXPR | .CALL_EXPR | .PATH_EXPR | .BLOCK_EXPR => true
  | _ => false

/-- Modelled from the spec: an immutable syntax tree; each node has a
kind tag and either owned text (leaves) or ordered children. -/
inductive Tree where
  | leaf (kind : SyntaxKind) (text : Text)
  | node (kind : SyntaxKind) (children : List Tree)

mutual

def Tree.beq : Tree → Tree → Bool
  | .leaf k s, .leaf k' s' => k == k' && s == s'
  | .node k cs, .node k' cs' => k == k' && beqTreeList cs cs'
  | _, _ => false

def beqTreeList : List Tree → List Tree → Bool
  | [], [] => true
  | t :: ts, u :: us => Tree.beq t u && beqTreeList ts us
  | _, _ => false

end

theorem Tree.beq_iff : ∀ a b : Tree, (Tree.beq a b = true ↔ a = b) := by
  refine @Tree.rec (fun a => ∀ b, (Tree.beq a b = true ↔ a = b))
    (fun cs => ∀ ds, (beqTreeList cs ds = true ↔ cs = ds)) ?_ ?_ ?_ ?_
  · intro k s b
    cases b with
    | leaf k' s' => simp [Tree.beq]
    | node k' cs' => simp [Tree.beq]
  · intro k cs ih b
    cases b with
    | leaf k' s' => simp [Tree.beq]
    | node k' cs' => simp [Tree.beq, ih cs']
  · intro ds
    cases ds with
    | nil => simp [beqTreeList]
    | cons d ds => simp [beqTreeList]
  · intro t ts iht ihts ds
    cases ds with
    | nil => simp [beqTreeList]
    | cons d ds => simp [beqTreeList, iht d, ihts ds]

instance : DecidableEq Tree := fun a b => decidable_of_iff _ (Tree.beq_iff a b)

mutual

/-- The text of a node: concatenation of the texts of its leaves. -/
def Tree.text : Tree → Text
  | .leaf _ s => s
  | .node _ cs => textList cs

def textList : List Tree → Text
  | [] => []
  | t :: ts => t.text ++ textList ts

end

/-- Length of a node's text, i.e. the length of its range. -/
def Tree.len (t : Tree) : Nat := t.text.length

def Tree.kind : Tree → SyntaxKind
  | .leaf k _ => k
  | .node k _ => k

def Tree.children : Tree → List Tree
  | .leaf _ _ => []
  | .node _ cs => cs

/-- Half-open text range with absolute offsets, `lo ≤ hi` by use. -/
structure TextRange where
  lo : Nat
  hi : Nat
deriving DecidableEq

def TextRange.isEmpty (r : TextRange) : Bool := r.lo == r.hi

/-- `text_utils::contains_offset_nonstrict`: both ends inclusive. -/
def contains_offset_nonstrict (r : TextRange) (off : Nat) : Prop :=
  r.lo ≤ off ∧ off ≤ r.hi

instance (r : TextRange) (off : Nat) : Decidable (contains_offset_nonstrict r off) :=
  inferInstanceAs (Decidable (_ ∧ _))

/-- `text_utils::intersect`: some when max of starts ≤ min of ends. -/
def intersect (a b : TextRange) : Option TextRange :=
  let lo := max a.lo b.lo
  let hi := min a.hi b.hi
  if lo ≤ hi then some ⟨lo, hi⟩ else none

/-- `text_utils::is_subrange range subrange`: `subrange ⊆ range`. -/
def is_subrange (range subrange : TextRange) : Prop :=
  range.lo ≤ subrange.lo ∧ subrange.hi ≤ range.hi

instance (a b : TextRange) : Decidable (is_subrange a b) :=
  inferInstanceAs (Decidable (_ ∧ _))

/-- Does the text contain a newline character. -/
def hasNL (l : Text) : Bool := l.any (fun c => c == '\n')

/-- Number of newline characters in the text. -/
def nlCount (l : Text) : Nat := (l.filter (fun c => c == '\n')).length

/-- Index of the first newline (`str::find`). -/
def idxOfNL (l : Text) : Option Nat := l.findIdx? (fun c => c == '\n')

/-- Ascending positions of every newline character in the text. -/
def nlPositions : Text → List Nat
  | [] => []
  | c :: rest =>
    if c = '\n' then 0 :: (nlPositions rest).map (fun i => i + 1)
    else (nlPositions rest).map (fun i => i + 1)

/-- Slice `l[a..b]` of a text (total; callers establish `a ≤ b`). -/
def extract (l : Text) (a b : Nat) : Text := (l.drop a).take (b - a)

/-- Length of the leading run of ASCII space characters. -/
def leadingSpaces (l : Text) : Nat := (l.takeWhile (fun c => c == ' ')).length

/-- Does `pat` occur at the head of `l` (`str::starts_with`). -/
def hasLead : Text → Text → Bool
  | [], _ => true
  | _ :: _, [] => false
  | p :: ps, c :: cs => p == c && hasLead ps cs

/-- A single text operation: replace the characters in `delete` by
`insert` (inserts have an empty range, deletions an empty text). -/
structure AtomEdit where
  delete : TextRange
  insert : Text
deriving DecidableEq

/-- Modelled from the spec: the edit accumulator collects operations
over absolute source offsets. -/
structure EditBuilder where
  atoms : List AtomEdit
deriving DecidableEq

def EditBuilder.new : EditBuilder := ⟨[]⟩

def EditBuilder.insert (e : EditBuilder) (off : Nat) (txt : Text) : EditBuilder :=
  ⟨e.atoms ++ [⟨⟨off, off⟩, txt⟩]⟩

def EditBuilder.delete (e : EditBuilder) (r : TextRange) : EditBuilder :=
  ⟨e.atoms ++ [⟨r, []⟩]⟩

def EditBuilder.replace (e : EditBuilder) (r : TextRange) (txt : Text) : EditBuilder :=
  ⟨e.atoms ++ [⟨r, txt⟩]⟩

/-- Modelled from the spec: true iff the offset lies inside (boundary
included) some already-recorded operation's range. -/
def EditBuilder.invalidates_offset (e : EditBuilder) (off : Nat) : Prop :=
  ∃ a ∈ e.atoms, contains_offset_nonstrict a.delete off

instance (e : EditBuilder) (off : Nat) : Decidable (e.invalidates_offset off) :=
  inferInstanceAs (Decidable (∃ a ∈ e.atoms, _))

def insertSorted (a : AtomEdit) : List AtomEdit → List AtomEdit
  | [] => [a]
  | b :: bs => if b.delete.lo < a.delete.lo then b :: insertSorted a bs else a :: b :: bs

def sortAtoms : List AtomEdit → List AtomEdit
  | [] => []
  | a :: rest => insertSorted a (sortAtoms rest)

/-- The finalized composite edit: operations sorted by start offset. -/
structure Edit where
  atoms : List AtomEdit
deriving DecidableEq

def EditBuilder.finish (e : EditBuilder) : Edit := ⟨sortAtoms e.atoms⟩

/-- Result type of all three operations: a composite edit plus an
optional cursor offset in pre-edit coordinates. -/
structure LocalEdit where
  edit : Edit
  cursor_position : Option Nat
deriving DecidableEq

def applyGo : Nat → Text → List AtomEdit → Text
  | _, text, [] => text
  | pos, text, a :: rest =>
    text.take (a.delete.lo - pos) ++ a.insert ++
      applyGo a.delete.hi (text.drop (a.delete.hi - pos)) rest

/-- Modelled from the spec: the caller applies the composite edit to
its text buffer (atoms sorted, non-overlapping). -/
def Edit.apply (ed : Edit) (text : Text) : Text := applyGo 0 text ed.atoms

/-- A leaf token of the file together with its absolute start. -/
structure LeafTok where
  start : Nat
  kind : SyntaxKind
  text : Text
deriving DecidableEq

def LeafTok.range (l : LeafTok) : TextRange := ⟨l.start, l.start + l.text.length⟩

mutual

def Tree.toks : Tree → List (SyntaxKind × Text)
  | .leaf k s => [(k, s)]
  | .node _ cs => toksList cs

def toksList : List Tree → List (SyntaxKind × Text)
  | [] => []
  | t :: ts => t.toks ++ toksList ts

end

def withStarts (base : Nat) : List (SyntaxKind × Text) → List LeafTok
  | [] => []
  | p :: rest => ⟨base, p.1, p.2⟩ :: withStarts (base + p.2.length) rest

/-- All leaf tokens of the file, in source order, with absolute starts. -/
def leafToks (t : Tree) : List LeafTok := withStarts 0 t.toks

inductive LeafAtOffset where
  | missing
  | single (n : LeafTok)
  | between (l r : LeafTok)
deriving DecidableEq

/-- The non-empty leaf tokens whose closed range contains the offset. -/
def leafCands (t : Tree) (offset : Nat) : List LeafTok :=
  (leafToks t).filter
    (fun l => decide (l.text ≠ [] ∧ contains_offset_nonstrict l.range offset))

/-- Modelled from the spec: `find_leaf_at_offset` returns the (at most
two) non-empty leaves whose closed range contains the offset; two
leaves meet exactly at a token boundary. -/
def find_leaf_at_offset (t : Tree) (offset : Nat) : LeafAtOffset :=
  match leafCands t offset with
  | [] => .missing
  | [n] => .single n
  | l :: r :: _ => .between l r

def LeafAtOffset.left_biased : LeafAtOffset → Option LeafTok
  | .missing => none
  | .single n => some n
  | .between l _ => some l

inductive CommentFlavor where
  | Line | Doc | ModuleDoc | Multiline
deriving DecidableEq

/-- Modelled from the spec: a comment's flavor tag, determined by its
marker; anything that does not start with `//` is a block comment. -/
def commentFlavor (text : Text) : CommentFlavor :=
  if hasLead (str "//!") text then .ModuleDoc
  else if hasLead (str "///") text then .Doc
  else if hasLead (str "//") text then .Line
  else .Multiline

/-- Modelled from the spec: the comment marker for each flavor. -/
def commentMarker (text : Text) : Text :=
  match commentFlavor text with
  | .ModuleDoc => str "//!"
  | .Doc => str "///"
  | .Line => str "//"
  | .Multiline => str "/*"

/-- `node_indent`: the indentation in force at the start of `node` —
the whitespace from the last newline of the leaf immediately before
`node`, the empty string when `node` is the first leaf, no result when
the preceding leaf is not whitespace.  The source asserts that the
leaf lookup at `node`'s start returns `node` itself (and that the
lookup succeeds); a failed assertion is a panic, modelled as `none`. -/
def node_indent (file : Tree) (node : LeafTok) : Option Text :=
  match find_leaf_at_offset file node.range.lo with
  | .between l r =>
    if r = node then
      if l.kind ≠ .WHITESPACE then none
      else
        let pos := match (nlPositions l.text).getLast? with
          | some i => i + 1
          | none => 0
        some (l.text.drop pos)
    else none
  | .single n => if n = node then some [] else none
  | .missing => none

/-- `on_enter`: continue a single-line comment after the cursor. -/
def on_enter (file : Tree) (offset : Nat) : Option LocalEdit :=
  match (find_leaf_at_offset file offset).left_biased with
  | none => none
  | some c =>
    if c.kind ≠ .COMMENT then none
    else if commentFlavor c.text = .Multiline then none
    else
      let mk := commentMarker c.text
      if offset < c.range.lo + mk.length + 1 then none
      else
        match node_indent file c with
        | none => none
        | some indent =>
          let inserted := str "\n" ++ indent ++ mk ++ str " "
          let cursor_position := offset + inserted.length
          some ⟨(EditBuilder.new.insert offset inserted).finish, some cursor_position⟩

/-- A path from the root to a node: the child index at each level. -/
abbrev Path := List Nat

/-- Absolute start offset of child `i` relative to its parent's start. -/
def childBase (cs : List Tree) (i : Nat) : Nat := (textList (cs.take i)).length

/-- The node at a path, together with its start offset relative to the
tree the lookup begins at. -/
def Tree.nodeAt : Tree → Path → Option (Nat × Tree)
  | t, [] => some (0, t)
  | .leaf _ _, _ :: _ => none
  | .node _ cs, i :: p =>
    match cs[i]? with
    | none => none
    | some c =>
      match c.nodeAt p with
      | none => none
      | some (b, u) => some (childBase cs i + b, u)

def splitLast {α : Type} : List α → Option (List α × α)
  | [] => none
  | [x] => some ([], x)
  | x :: y :: xs =>
    match splitLast (y :: xs) with
    | none => none
    | some (q, z) => some (x :: q, z)

/-- Modelled from the spec: sibling navigation — the child before the
one the path ends in, with its absolute start. -/
def prevSibling (file : Tree) (p : Path) : Option (Nat × Tree) :=
  match splitLast p with
  | none => none
  | some (q, i) =>
    if i = 0 then none
    else
      match file.nodeAt q with
      | some (b, .node _ cs) =>
        match cs[i-1]? with
        | none => none
        | some c => some (b + childBase cs (i-1), c)
      | _ => none

/-- Modelled from the spec: sibling navigation — the child after the
one the path ends in, with its absolute start. -/
def nextSibling (file : Tree) (p : Path) : Option (Nat × Tree) :=
  match splitLast p with
  | none => none
  | some (q, i) =>
    match file.nodeAt q with
    | some (b, .node _ cs) =>
      match cs[i+1]? with
      | none => none
      | some c => some (b + childBase cs (i+1), c)
    | _ => none

/-- A leaf of a subtree: its path, start offset (both relative to the
subtree), kind and text. -/
structure LeafInfo where
  path : Path
  start : Nat
  kind : SyntaxKind
  text : Text
deriving DecidableEq

mutual

/-- The leaves of a subtree in preorder (= ascending start offset). -/
def Tree.leafInfos : Tree → List LeafInfo
  | .leaf k s => [⟨[], 0, k, s⟩]
  | .node _ cs => leafInfosList 0 0 cs

def leafInfosList : Nat → Nat → List Tree → List LeafInfo
  | _, _, [] => []
  | i, off, c :: rest =>
    c.leafInfos.map (fun e => ⟨i :: e.path, off + e.start, e.kind, e.text⟩) ++
      leafInfosList (i+1) (off + c.len) rest

end

mutual

/-- Modelled from the spec: descend from `t` while some child's range
fully contains `range`; the smallest node whose range contains it. -/
def coverGo (t : Tree) (base : Nat) (range : TextRange) : Path × Nat × Tree :=
  match t with
  | .leaf _ _ => ([], base, t)
  | .node _ cs =>
    match coverScan base 0 cs range with
    | some res => res
    | none => ([], base, t)

def coverScan (base : Nat) (i : Nat) (cs : List Tree) (range : TextRange) :
    Option (Path × Nat × Tree) :=
  match cs with
  | [] => none
  | c :: rest =>
    if is_subrange ⟨base, base + c.len⟩ range then
      match coverGo c base range with
      | (p, b, u) => some (i :: p, b, u)
    else coverScan (base + c.len) (i+1) rest range

end

def find_covering_node (file : Tree) (range : TextRange) : Path × Nat × Tree :=
  coverGo file 0 range

mutual

/-- Modelled from the spec: the smallest enclosing binding (`let`)
statement node whose range contains the offset (both ends inclusive),
preferring a deeper match. -/
def findLetGo (base : Nat) (t : Tree) (offset : Nat) : Option (Nat × Tree) :=
  if contains_offset_nonstrict ⟨base, base + t.len⟩ offset then
    match t with
    | .leaf _ _ => none
    | .node k cs =>
      match findLetScan base cs offset with
      | some res => some res
      | none => if k = .LET_STMT then some (base, .node k cs) else none
  else none

def findLetScan (base : Nat) (cs : List Tree) (offset : Nat) : Option (Nat × Tree) :=
  match cs with
  | [] => none
  | c :: rest =>
    match findLetGo base c offset with
    | some res => some res
    | none => findLetScan (base + c.len) rest offset

end

def find_let_stmt_at_offset (file : Tree) (offset : Nat) : Option (Nat × Tree) :=
  findLetGo 0 file offset

/-- `LetStmt::has_semi`: is the statement's last child a `SEMI` token. -/
def has_semi (t : Tree) : Bool :=
  match t.children.getLast? with
  | none => false
  | some c => c.kind == .SEMI

def initScan (base : Nat) : List Tree → Option (Nat × Tree)
  | [] => none
  | c :: rest => if isExprKind c.kind then some (base, c) else initScan (base + c.len) rest

/-- `LetStmt::initializer`: the first child that is an expression,
with its absolute start given the statement's start. -/
def initializer (base : Nat) (t : Tree) : Option (Nat × Tree) :=
  initScan base t.children

/-- `TextRange` slicing requires `start ≤ end`; a reversed range is a
panic, modelled as `none`. -/
def sliceChecked (text : Text) (a b : Nat) : Option Text :=
  if a ≤ b then some (extract text a b) else none

/-- `on_eq_typed`: append `";"` at the end of a just-completed `let`
binding without a terminator. -/
def on_eq_typed (file : Tree) (offset : Nat) : Option LocalEdit :=
  match find_let_stmt_at_offset file offset with
  | none => none
  | some (ls, lt) =>
    if has_semi lt then none
    else
      match initializer ls lt with
      | none => none
      | some (es, et) =>
        let expr_range : TextRange := ⟨es, es + et.len⟩
        if contains_offset_nonstrict expr_range offset ∧ offset ≠ expr_range.lo then none
        else
          match sliceChecked file.text offset expr_range.lo with
          | none => none
          | some s =>
            if hasNL s then none
            else some ⟨(EditBuilder.new.insert (ls + lt.len) (str ";")).finish, none⟩

def is_trailing_comma (left right : SyntaxKind) : Bool :=
  match left, right with
  | .COMMA, .R_PAREN | .COMMA, .R_BRACK => true
  | _, _ => false

/-- `compute_ws` on the kinds of the two adjacent nodes. -/
def compute_ws (left right : SyntaxKind) : Text :=
  match left with
  | .L_PAREN | .L_BRACK => []
  | _ =>
    match right with
    | .R_PAREN | .R_BRACK | .DOT => []
    | _ => str " "

def singleExprScan (res : Option (Nat × Tree)) (base : Nat) : List Tree → Option (Nat × Tree)
  | [] => res
  | c :: rest =>
    if isExprKind c.kind then
      if hasNL c.text then none
      else
        match res with
        | some _ => none
        | none => singleExprScan (some (base, c)) (base + c.len) rest
    else
      match c.kind with
      | .WHITESPACE | .L_CURLY | .R_CURLY => singleExprScan res (base + c.len) rest
      | _ => none

/-- `single_expr`: the unique expression child of a block whose text
has no newline, every other child being whitespace or a curly brace. -/
def single_expr (base : Nat) (block : Tree) : Option (Nat × Tree) :=
  singleExprScan none base block.children

/-- `join_single_expr_block`: when the whitespace node's parent is a
block inside a block expression with a single expression, replace the
whole block expression's range by the expression's text. -/
def join_single_expr_block (edit : EditBuilder) (file : Tree) (p : Path) :
    Option EditBuilder :=
  match splitLast p with
  | none => none
  | some (q, _) =>
    match file.nodeAt q with
    | some (bbase, btree) =>
      if btree.kind ≠ .BLOCK then none
      else
        match splitLast q with
        | none => none
        | some (r, _) =>
          match file.nodeAt r with
          | some (bebase, betree) =>
            if betree.kind ≠ .BLOCK_EXPR then none
            else
              match single_expr bbase btree with
              | none => none
              | some (_, et) =>
                some (edit.replace ⟨bebase, bebase + betree.len⟩ et.text)
          | none => none
    | none => none

/-- `remove_newline`: rewrite one newline at absolute `offset` inside
the node at `p` (start `nstart`, kind `nkind`, text `node_text`).
`none` models the panic of the sibling `unwrap`s. -/
def remove_newline (file : Tree) (edit : EditBuilder) (p : Path) (nstart : Nat)
    (nkind : SyntaxKind) (node_text : Text) (offset : Nat) : Option EditBuilder :=
  if nkind ≠ .WHITESPACE ∨ nlCount node_text ≠ 1 then
    -- The node is either the first or the last in the file
    let suff := extract node_text (offset - nstart + 1) node_text.length
    let spaces := leadingSpaces suff
    some (edit.replace ⟨offset, offset + spaces + 1⟩ (str " "))
  else
    match join_single_expr_block edit file p with
    | some e => some e
    | none =>
      -- The node is between two other nodes
      match prevSibling file p, nextSibling file p with
      | some (ps, pt), some (ns, nt) =>
        if is_trailing_comma pt.kind nt.kind then
          -- Removes: trailing comma, newline (incl. surrounding whitespace)
          some (edit.delete ⟨ps, nstart + node_text.length⟩)
        else if pt.kind = .COMMA ∧ nt.kind = .R_CURLY then
          -- Removes: comma, newline; adds a single whitespace
          some (edit.replace ⟨ps, nstart + node_text.length⟩ (str " "))
        else if pt.kind = .COMMENT ∧ nt.kind = .COMMENT then
          -- Removes: newline (incl. surrounding whitespace), start of next comment
          match idxOfNL nt.text with
          | some newline_pos =>
            let newline_offset := ns + newline_pos + 1
            some ((edit.insert newline_offset (str "/*")).delete
              ⟨nstart, ns + (commentMarker nt.text).length⟩)
          | none =>
            some (edit.delete ⟨nstart, ns + (commentMarker nt.text).length⟩)
        else
          some (edit.replace ⟨nstart, nstart + node_text.length⟩
            (compute_ws pt.kind nt.kind))
      | _, _ => none

/-- The inner loop of `join_lines`: handle the newlines of one leaf at
the given ascending relative positions, skipping invalidated offsets. -/
def processNLs (file : Tree) (info : LeafInfo) (rlo : Nat) (edit : EditBuilder) :
    List Nat → Option EditBuilder
  | [] => some edit
  | pos :: rest =>
    let off := info.start + rlo + pos
    if edit.invalidates_offset off then processNLs file info rlo edit rest
    else
      match remove_newline file edit info.path info.start info.kind info.text off with
      | none => none
      | some e => processNLs file info rlo e rest

/-- One step of the outer loop of `join_lines`: intersect the target
range with the leaf's range and handle every newline inside. -/
def processLeaf (file : Tree) (range : TextRange) (edit : EditBuilder)
    (info : LeafInfo) : Option EditBuilder :=
  match intersect range ⟨info.start, info.start + info.text.length⟩ with
  | none => some edit
  | some r =>
    let rlo := r.lo - info.start
    let rhi := r.hi - info.start
    processNLs file info rlo edit (nlPositions (extract info.text rlo rhi))

def processLeaves (file : Tree) (range : TextRange) :
    EditBuilder → List LeafInfo → Option EditBuilder
  | edit, [] => some edit
  | edit, info :: rest =>
    match processLeaf file range edit info with
    | none => none
    | some e => processLeaves file range e rest

/-- `join_lines`: normalize the range, find the covering node, rewrite
every newline of the covering subtree that intersects the range.
`none` models a panic in `remove_newline`. -/
def join_lines (file : Tree) (range : TextRange) : Option LocalEdit :=
  match
    (if range.isEmpty then
      match idxOfNL (file.text.drop range.lo) with
      | none => none
      | some pos => some (⟨range.lo + pos, range.lo + pos + 1⟩ : TextRange)
    else some range) with
  | none => some ⟨EditBuilder.new.finish, none⟩
  | some range =>
    match find_covering_node file range with
    | (cpath, cbase, cnode) =>
      let infos := cnode.leafInfos.map
        (fun e => ⟨cpath ++ e.path, cbase + e.start, e.kind, e.text⟩)
      match processLeaves file range EditBuilder.new infos with
      | none => none
      | some edit => some ⟨edit.finish, none⟩


/-! Concrete example inputs (used by counterexamples and witnesses). -/

/-- Syntax tree of `foo(1,\n    )`. -/
def exComma : Tree :=
  .node .CALL_EXPR [
    .node .PATH_EXPR [.leaf .IDENT (str "foo")],
    .node .OTHER [.leaf .L_PAREN (str "("), .leaf .LITERAL (str "1"),
      .leaf .COMMA (str ","), .leaf .WHITESPACE (str "\n    "),
      .leaf .R_PAREN (str ")")]]

/-- Syntax tree of `foo({\n    92\n})`. -/
def exBlock : Tree :=
  .node .CALL_EXPR [
    .node .PATH_EXPR [.leaf .IDENT (str "foo")],
    .node .OTHER [.leaf .L_PAREN (str "("),
      .node .BLOCK_EXPR [.node .BLOCK [.leaf .L_CURLY (str "\x7b"),
        .leaf .WHITESPACE (str "\n    "), .leaf .LITERAL (str "92"),
        .leaf .WHITESPACE (str "\n"), .leaf .R_CURLY (str "\x7d")]],
      .leaf .R_PAREN (str ")")]]

/-- Syntax tree of `\nfn f() {}`: the file starts with a lone newline. -/
def exLead : Tree :=
  .node .ROOT [.leaf .WHITESPACE (str "\n"),
    .node .FN_DEF [.leaf .OTHER (str "fn"), .leaf .WHITESPACE (str " "),
      .leaf .IDENT (str "f"), .leaf .L_PAREN (str "("), .leaf .R_PAREN (str ")"),
      .leaf .WHITESPACE (str " "), .leaf .L_CURLY (str "\x7b"), .leaf .R_CURLY (str "\x7d")]]

/-- Syntax tree of `// a\n/* b\n  */`: a line comment, a newline, and a
block comment that itself contains a newline. -/
def exSplice : Tree :=
  .node .ROOT [.leaf .COMMENT (str "// a"), .leaf .WHITESPACE (str "\n"),
    .leaf .COMMENT (str "/* b\n  */")]

/-- Syntax tree of `fn f() { let x = 92 }` (no terminator on the `let`). -/
def exLet : Tree :=
  .node .ROOT [.node .FN_DEF [.leaf .OTHER (str "fn"), .leaf .WHITESPACE (str " "),
    .leaf .IDENT (str "f"), .leaf .L_PAREN (str "("), .leaf .R_PAREN (str ")"),
    .leaf .WHITESPACE (str " "),
    .node .BLOCK_EXPR [.node .BLOCK [.leaf .L_CURLY (str "\x7b"), .leaf .WHITESPACE (str " "),
      .node .LET_STMT [.leaf .OTHER (str "let"), .leaf .WHITESPACE (str " "),
        .leaf .IDENT (str "x"), .leaf .WHITESPACE (str " "), .leaf .EQ (str "="),
        .leaf .WHITESPACE (str " "), .leaf .LITERAL (str "92")],
      .leaf .WHITESPACE (str " "), .leaf .R_CURLY (str "\x7d")]]]]

/-- Syntax tree of `/// Some docs\nfn foo() {}`. -/
def exDocs : Tree :=
  .node .ROOT [.leaf .COMMENT (str "/// Some docs"), .leaf .WHITESPACE (str "\n"),
    .node .FN_DEF [.leaf .OTHER (str "fn"), .leaf .WHITESPACE (str " "),
      .leaf .IDENT (str "foo"), .leaf .L_PAREN (str "("), .leaf .R_PAREN (str ")"),
      .leaf .WHITESPACE (str " "), .leaf .L_CURLY (str "\x7b"), .leaf .R_CURLY (str "\x7d")]]

/-- Syntax tree of `//! docz` alone in a file. -/
def exModDoc : Tree := .node .ROOT [.leaf .COMMENT (str "//! docz")]

/-- Follows the spec's words (§4.2): the per-newline rewrite rules for
an interior single-newline whitespace node, tried in the listed order —
(a) trailing comma before `)`/`]`, (b) comma before `}`, (c) comment
splicing, (d) single-expression block inlining, (e) default separator —
the first matching rule deciding the edit. -/
def spec_rule_order (file : Tree) (edit : EditBuilder) (p : Path) (nstart : Nat)
    (node_text : Text) (ps : Nat) (pt : Tree) (ns : Nat) (nt : Tree) :
    Option EditBuilder :=
  if is_trailing_comma pt.kind nt.kind then
    some (edit.delete ⟨ps, nstart + node_text.length⟩)
  else if pt.kind = .COMMA ∧ nt.kind = .R_CURLY then
    some (edit.replace ⟨ps, nstart + node_text.length⟩ (str " "))
  else if pt.kind = .COMMENT ∧ nt.kind = .COMMENT then
    match idxOfNL nt.text with
    | some newline_pos =>
      some ((edit.insert (ns + newline_pos + 1) (str "/*")).delete
        ⟨nstart, ns + (commentMarker nt.text).length⟩)
    | none => some (edit.delete ⟨nstart, ns + (commentMarker nt.text).length⟩)
  else
    match join_single_expr_block edit file p with
    | some e => some e
    | none =>
      some (edit.replace ⟨nstart, nstart + node_text.length⟩ (compute_ws pt.kind nt.kind))

/-! Helper lemmas. -/

theorem singleExprScan_none_of_bad :
    ∀ (cs : List Tree) (res : Option (Nat × Tree)) (base : Nat) (c : Tree), c ∈ cs →
      isExprKind c.kind = false → c.kind ≠ .WHITESPACE → c.kind ≠ .L_CURLY →
      c.kind ≠ .R_CURLY → singleExprScan res base cs = none := by
  intro cs
  induction cs with
  | nil =>
    intro res base c h
    cases h
  | cons d rest ih =>
    intro res base c hmem hbad hw hl hr
    rcases List.mem_cons.mp hmem with rfl | hmem'
    · cases hck : c.kind <;> simp_all [singleExprScan]
    · cases hde : isExprKind d.kind with
      | true =>
        cases hdn : hasNL d.text with
        | true => simp [singleExprScan, hde, hdn]
        | false =>
          cases res with
          | some x => simp [singleExprScan, hde, hdn]
          | none =>
            simp only [singleExprScan, hde, hdn, if_true, Bool.false_eq_true, if_false]
            exact ih _ _ c hmem' hbad hw hl hr
      | false =>
        simp only [singleExprScan, hde, Bool.false_eq_true, if_false]
        cases d.kind <;>
          first
            | rfl
            | exact ih _ _ c hmem' hbad hw hl hr

theorem prevSibling_eq_some (file : Tree) (p : Path) (ps : Nat) (pt : Tree)
    (h : prevSibling file p = some (ps, pt)) :
    ∃ q i b k cs, splitLast p = some (q, i) ∧ i ≠ 0 ∧
      file.nodeAt q = some (b, .node k cs) ∧ cs[i-1]? = some pt ∧
      ps = b + childBase cs (i-1) := by
  unfold prevSibling at h
  cases hsl : splitLast p with
  | none => rw [hsl] at h; cases h
  | some qi =>
    obtain ⟨q, i⟩ := qi
    rw [hsl] at h
    dsimp only at h
    by_cases hi : i = 0
    · rw [if_pos hi] at h
      cases h
    · rw [if_neg hi] at h
      cases hna : file.nodeAt q with
      | none => rw [hna] at h; cases h
      | some bt =>
        obtain ⟨b, t⟩ := bt
        rw [hna] at h
        cases t with
        | leaf k s => cases h
        | node k cs =>
          dsimp only at h
          cases hget : cs[i-1]? with
          | none => rw [hget] at h; cases h
          | some c =>
            rw [hget] at h
            dsimp only at h
            simp only [Option.some.injEq, Prod.mk.injEq] at h
            obtain ⟨h1, h2⟩ := h
            exact ⟨q, i, b, k, cs, rfl, hi, hna, h2 ▸ hget, h1.symm⟩

theorem join_single_none_of_bad_sibling (edit : EditBuilder) (file : Tree) (p : Path)
    (ps : Nat) (pt : Tree) (h : prevSibling file p = some (ps, pt))
    (hbad : isExprKind pt.kind = false) (hw : pt.kind ≠ .WHITESPACE)
    (hl : pt.kind ≠ .L_CURLY) (hr : pt.kind ≠ .R_CURLY) :
    join_single_expr_block edit file p = none := by
  obtain ⟨q, i, b, k, cs, hsl, hi, hna, hget, -⟩ := prevSibling_eq_some file p ps pt h
  unfold join_single_expr_block
  rw [hsl]
  dsimp only
  rw [hna]
  dsimp only
  by_cases hk : (Tree.node k cs).kind = .BLOCK
  · rw [if_neg (by simp [hk])]
    cases hsq : splitLast q with
    | none => rfl
    | some rj =>
      obtain ⟨r, j⟩ := rj
      dsimp only
      cases hnr : file.nodeAt r with
      | none => rfl
      | some bb =>
        obtain ⟨beb, bet⟩ := bb
        dsimp only
        by_cases hbe : bet.kind = .BLOCK_EXPR
        · rw [if_neg (by simp [hbe])]
          have hse : single_expr b (Tree.node k cs) = none := by
            unfold single_expr
            exact singleExprScan_none_of_bad cs none b pt
              (List.getElem?_mem hget) hbad hw hl hr
          rw [hse]
        · rw [if_pos hbe]
  · rw [if_pos hk]

theorem is_trailing_comma_left {l r : SyntaxKind} (h : is_trailing_comma l r = true) :
    l = .COMMA := by
  unfold is_trailing_comma at h
  split at h
  · rfl
  · rfl
  · cases h

/-- C8: for a containing node that is not a pure single-newline
whitespace run, `remove_newline` replaces the newline plus the
immediately following run of ASCII space characters (only spaces, not
tabs) with a single space; the replaced range starts at the newline's
offset and extends through that run. -/
theorem remove_newline_boundary_space_run (file : Tree) (edit : EditBuilder)
    (p : Path) (nstart : Nat) (nkind : SyntaxKind) (node_text : Text) (offset : Nat)
    (h : nkind ≠ .WHITESPACE ∨ nlCount node_text ≠ 1) :
    remove_newline file edit p nstart nkind node_text offset =
      some (edit.replace
        ⟨offset,
         offset + leadingSpaces (extract node_text (offset - nstart + 1) node_text.length) + 1⟩
        (str " ")) := by
  unfold remove_newline
  rw [if_pos h]

/-- C8 witness: inside the block comment `/* a\n \t  x*/` the space run
after the newline stops at the tab, so only one character beyond the
newline is replaced. -/
theorem remove_newline_boundary_space_run_witness :
    (SyntaxKind.COMMENT ≠ SyntaxKind.WHITESPACE ∨ nlCount (str "/* a\n \t  x*/") ≠ 1) ∧
    remove_newline (.leaf .COMMENT (str "/* a\n \t  x*/")) ⟨[]⟩ [] 0 .COMMENT
        (str "/* a\n \t  x*/") 4 =
      some (EditBuilder.replace ⟨[]⟩ ⟨4, 6⟩ (str " ")) ∧
    leadingSpaces (extract (str "/* a\n \t  x*/") 5 12) = 1 :=
  ⟨Or.inl (by decide),
   (remove_newline_boundary_space_run (.leaf .COMMENT (str "/* a\n \t  x*/")) ⟨[]⟩ [] 0
      .COMMENT (str "/* a\n \t  x*/") 4 (Or.inl (by decide))).trans (by decide),
   by decide⟩

/-- C7: for an interior pure single-newline whitespace node whose
parent is a block whose own parent is a block expression containing
exactly one newline-free expression, the emitted edit replaces the
entire block expression's range with the expression's literal text;
and joining at the cursor in `foo({\n    92\n})` yields `foo(92)`. -/
theorem remove_newline_inlines_single_expr_block (file : Tree) (edit : EditBuilder)
    (p : Path) (nstart : Nat) (node_text : Text) (offset : Nat)
    (q : Path) (i : Nat) (bbase : Nat) (btree : Tree)
    (r : Path) (j : Nat) (bebase : Nat) (betree : Tree) (es : Nat) (et : Tree)
    (hws : nlCount node_text = 1)
    (hsl : splitLast p = some (q, i)) (hnq : file.nodeAt q = some (bbase, btree))
    (hbk : btree.kind = .BLOCK)
    (hsq : splitLast q = some (r, j)) (hnr : file.nodeAt r = some (bebase, betree))
    (hbek : betree.kind = .BLOCK_EXPR)
    (hse : single_expr bbase btree = some (es, et)) :
    remove_newline file edit p nstart .WHITESPACE node_text offset =
      some (edit.replace ⟨bebase, bebase + betree.len⟩ et.text) ∧
    (join_lines exBlock ⟨4, 4⟩).map (fun le => le.edit.apply exBlock.text) =
      some (str "foo(92)") := by
  constructor
  · unfold remove_newline
    rw [if_neg (by simp [hws])]
    have hj : join_single_expr_block edit file p =
        some (edit.replace ⟨bebase, bebase + betree.len⟩ et.text) := by
      unfold join_single_expr_block
      rw [hsl]
      dsimp only
      rw [hnq]
      dsimp only
      rw [if_neg (by simp [hbk])]
      rw [hsq]
      dsimp only
      rw [hnr]
      dsimp only
      rw [if_neg (by simp [hbek])]
      rw [hse]
    rw [hj]
  · decide

/-- C7 witness: the whitespace node after `{` inside `foo({\n    92\n})`. -/
theorem remove_newline_inlines_single_expr_block_witness :
    nlCount (str "\n    ") = 1 ∧
    splitLast ([1, 1, 0, 1] : Path) = some ([1, 1, 0], 1) ∧
    exBlock.nodeAt [1, 1, 0] = some (4, .node .BLOCK [.leaf .L_CURLY (str "\x7b"),
      .leaf .WHITESPACE (str "\n    "), .leaf .LITERAL (str "92"),
      .leaf .WHITESPACE (str "\n"), .leaf .R_CURLY (str "\x7d")]) ∧
    remove_newline exBlock ⟨[]⟩ [1, 1, 0, 1] 5 .WHITESPACE (str "\n    ") 5 =
      some (EditBuilder.replace ⟨[]⟩ ⟨4, 14⟩ (str "92")) :=
  ⟨by decide, by decide, by decide,
   ((remove_newline_inlines_single_expr_block exBlock ⟨[]⟩ [1, 1, 0, 1] 5 (str "\n    ") 5
      [1, 1, 0] 1 4 (.node .BLOCK [.leaf .L_CURLY (str "\x7b"),
        .leaf .WHITESPACE (str "\n    "), .leaf .LITERAL (str "92"),
        .leaf .WHITESPACE (str "\n"), .leaf .R_CURLY (str "\x7d")])
      [1, 1] 0 4 (.node .BLOCK_EXPR [.node .BLOCK [.leaf .L_CURLY (str "\x7b"),
        .leaf .WHITESPACE (str "\n    "), .leaf .LITERAL (str "92"),
        .leaf .WHITESPACE (str "\n"), .leaf .R_CURLY (str "\x7d")]])
      10 (.leaf .LITERAL (str "92"))
      (by decide) (by decide) (by decide) (by decide) (by decide) (by decide)
      (by decide) (by decide)).1).trans (by decide)⟩

/-- C2: for an interior pure single-newline whitespace node with both
siblings present, the edit `remove_newline` emits is the one of the
first matching rule in the spec's priority order (a) trailing comma
before `)`/`]`, (b) comma before `}`, (c) comment splicing, (d)
single-expression block inlining, (e) default separator. -/
theorem remove_newline_first_match_spec_order (file : Tree) (edit : EditBuilder)
    (p : Path) (nstart : Nat) (node_text : Text) (offset : Nat)
    (ps ns : Nat) (pt nt : Tree)
    (hws : nlCount node_text = 1)
    (hp : prevSibling file p = some (ps, pt)) (hn : nextSibling file p = some (ns, nt)) :
    remove_newline file edit p nstart .WHITESPACE node_text offset =
      spec_rule_order file edit p nstart node_text ps pt ns nt := by
  unfold remove_newline spec_rule_order
  rw [if_neg (by simp [hws])]
  by_cases htc : is_trailing_comma pt.kind nt.kind = true
  · have hcomma := is_trailing_comma_left htc
    have hjs : join_single_expr_block edit file p = none :=
      join_single_none_of_bad_sibling edit file p ps pt hp
        (by rw [hcomma]; rfl) (by rw [hcomma]; decide)
        (by rw [hcomma]; decide) (by rw [hcomma]; decide)
    rw [hjs]
    simp [hp, hn, htc]
  · have htc' : is_trailing_comma pt.kind nt.kind = false := by
      simpa using htc
    by_cases hbc : pt.kind = .COMMA ∧ nt.kind = .R_CURLY
    · have hjs : join_single_expr_block edit file p = none :=
        join_single_none_of_bad_sibling edit file p ps pt hp
          (by rw [hbc.1]; rfl) (by rw [hbc.1]; decide)
          (by rw [hbc.1]; decide) (by rw [hbc.1]; decide)
      rw [hjs]
      simp [hp, hn, htc', hbc]
    · by_cases hcc : pt.kind = .COMMENT ∧ nt.kind = .COMMENT
      · have hjs : join_single_expr_block edit file p = none :=
          join_single_none_of_bad_sibling edit file p ps pt hp
            (by rw [hcc.1]; rfl) (by rw [hcc.1]; decide)
            (by rw [hcc.1]; decide) (by rw [hcc.1]; decide)
        rw [hjs]
        simp [hp, hn, htc', hbc, hcc]
      · simp [hp, hn, htc', hbc, hcc]

/-- C2 witness: the whitespace node of `foo(1,\n    )`: the trailing
comma rule fires first and deletes from the comma through the
whitespace. -/
theorem remove_newline_first_match_spec_order_witness :
    nlCount (str "\n    ") = 1 ∧
    prevSibling exComma [1, 3] = some (5, .leaf .COMMA (str ",")) ∧
    nextSibling exComma [1, 3] = some (11, .leaf .R_PAREN (str ")")) ∧
    remove_newline exComma ⟨[]⟩ [1, 3] 6 .WHITESPACE (str "\n    ") 6 =
      some (EditBuilder.delete ⟨[]⟩ ⟨5, 11⟩) :=
  ⟨by decide, by decide, by decide,
   (remove_newline_first_match_spec_order exComma ⟨[]⟩ [1, 3] 6 (str "\n    ") 6
      5 11 (.leaf .COMMA (str ",")) (.leaf .R_PAREN (str ")"))
      (by decide) (by decide) (by decide)).trans (by decide)⟩

/-- C6: for an interior pure single-newline whitespace node between
two comment nodes, the emitted edit deletes from the whitespace start
through the end of the next comment's marker, and additionally
reinserts `/*` right after the first newline inside the next comment's
text when that comment spans several lines. -/
theorem remove_newline_comment_splice (file : Tree) (edit : EditBuilder)
    (p : Path) (nstart : Nat) (node_text : Text) (offset : Nat)
    (ps ns : Nat) (pt nt : Tree)
    (hws : nlCount node_text = 1)
    (hp : prevSibling file p = some (ps, pt)) (hn : nextSibling file p = some (ns, nt))
    (hpc : pt.kind = .COMMENT) (hnc : nt.kind = .COMMENT) :
    remove_newline file edit p nstart .WHITESPACE node_text offset =
      (match idxOfNL nt.text with
       | some newline_pos =>
         some ((edit.insert (ns + newline_pos + 1) (str "/*")).delete
           ⟨nstart, ns + (commentMarker nt.text).length⟩)
       | none =>
         some (edit.delete ⟨nstart, ns + (commentMarker nt.text).length⟩)) := by
  have hjs : join_single_expr_block edit file p = none :=
    join_single_none_of_bad_sibling edit file p ps pt hp
      (by rw [hpc]; rfl) (by rw [hpc]; decide)
      (by rw [hpc]; decide) (by rw [hpc]; decide)
  unfold remove_newline
  rw [if_neg (by simp [hws]), hjs]
  simp [hp, hn, hpc, hnc, is_trailing_comma]

/-- C6 witness: the whitespace between `// a` and `/* b\n  */`: the
next comment spans two lines, so `/*` is reinserted after its inner
newline and the range from the whitespace through the marker is
deleted. -/
theorem remove_newline_comment_splice_witness :
    nlCount (str "\n") = 1 ∧
    prevSibling exSplice [1] = some (0, .leaf .COMMENT (str "// a")) ∧
    nextSibling exSplice [1] = some (5, .leaf .COMMENT (str "/* b\n  */")) ∧
    remove_newline exSplice ⟨[]⟩ [1] 4 .WHITESPACE (str "\n") 4 =
      some ((EditBuilder.insert ⟨[]⟩ 10 (str "/*")).delete ⟨4, 7⟩) :=
  ⟨by decide, by decide, by decide,
   (remove_newline_comment_splice exSplice ⟨[]⟩ [1] 4 (str "\n") 4
      0 5 (.leaf .COMMENT (str "// a")) (.leaf .COMMENT (str "/* b\n  */"))
      (by decide) (by decide) (by decide) (by decide) (by decide)).trans (by decide)⟩

set_option maxRecDepth 8192 in
/-- C1 (amended): `on_eq_typed` returns an edit iff the smallest
enclosing `let` statement at the offset exists, has no terminator
token yet, has an initializer expression, the offset is at or before
the initializer's start (not strictly inside the initializer past its
start, nor beyond it), and no newline occurs in the text between the
offset and the initializer's start; the edit inserts `";"` at the
statement's end offset and the cursor position is `None`. -/
theorem on_eq_typed_some_iff (file : Tree) (offset : Nat) (le : LocalEdit) :
    on_eq_typed file offset = some le ↔
    ∃ ls lt, find_let_stmt_at_offset file offset = some (ls, lt) ∧
      has_semi lt = false ∧
      ∃ es et, initializer ls lt = some (es, et) ∧
        offset ≤ es ∧
        hasNL (extract file.text offset es) = false ∧
        le = ⟨(EditBuilder.new.insert (ls + lt.len) (str ";")).finish, none⟩ := by
  unfold on_eq_typed
  cases hf : find_let_stmt_at_offset file offset with
  | none => simp
  | some lp =>
    obtain ⟨ls, lt⟩ := lp
    dsimp only
    cases hs : has_semi lt with
    | true => simp [hs]
    | false =>
      simp only [Bool.false_eq_true, if_false]
      cases hi : initializer ls lt with
      | none => simp [hi]
      | some ep =>
        obtain ⟨es, et⟩ := ep
        dsimp only
        by_cases hle : offset ≤ es
        · have hg1 : ¬ (contains_offset_nonstrict ⟨es, es + et.len⟩ offset ∧ offset ≠ es) := by
            simp only [contains_offset_nonstrict]
            omega
          rw [if_neg hg1]
          have hsc : sliceChecked file.text offset es = some (extract file.text offset es) := by
            unfold sliceChecked
            rw [if_pos hle]
          rw [hsc]
          dsimp only
          cases hnl : hasNL (extract file.text offset es) with
          | true =>
            constructor
            · intro h
              rw [if_pos rfl] at h
              cases h
            · rintro ⟨ls1, lt1, heq, hsemi1, es1, et1, hinit1, hle1, hnl1, hle2⟩
              injection heq with hpair
              injection hpair with h1 h2
              subst h1
              subst h2
              rw [hi] at hinit1
              injection hinit1 with hpair2
              injection hpair2 with h3 h4
              subst h3
              subst h4
              rw [hnl] at hnl1
              cases hnl1
          | false =>
            rw [if_neg (by simp)]
            constructor
            · intro h
              injection h with h
              exact ⟨ls, lt, rfl, hs, es, et, hi, hle, hnl, h.symm⟩
            · rintro ⟨ls1, lt1, heq, hsemi1, es1, et1, hinit1, hle1, hnl1, hle2⟩
              injection heq with hpair
              injection hpair with h1 h2
              subst h1
              subst h2
              rw [hi] at hinit1
              injection hinit1 with hpair2
              injection hpair2 with h3 h4
              subst h3
              subst h4
              rw [hle2]
        · have hrhs : ¬ (∃ ls1 lt1, some (ls, lt) = some (ls1, lt1) ∧ has_semi lt1 = false ∧
              ∃ es1 et1, initializer ls1 lt1 = some (es1, et1) ∧ offset ≤ es1 ∧
                hasNL (extract file.text offset es1) = false ∧
                le = ⟨(EditBuilder.new.insert (ls1 + lt1.len) (str ";")).finish, none⟩) := by
            rintro ⟨ls1, lt1, heq, hsemi1, es1, et1, hinit1, hle1, hnl1, hle2⟩
            injection heq with hpair
            injection hpair with h1 h2
            subst h1
            subst h2
            rw [hi] at hinit1
            injection hinit1 with hpair2
            injection hpair2 with h3 h4
            subst h3
            subst h4
            exact hle hle1
          by_cases hg1 : contains_offset_nonstrict ⟨es, es + et.len⟩ offset ∧ offset ≠ es
          · rw [if_pos hg1]
            exact iff_of_false (fun h => Option.noConfusion h) hrhs
          · have hsc : sliceChecked file.text offset es = none := by
              unfold sliceChecked
              rw [if_neg hle]
            rw [if_neg hg1, hsc]
            exact iff_of_false (fun h => Option.noConfusion h) hrhs

/-- C1 counterexample: in `fn f() { let x = 92 }` with the cursor at
offset 18, strictly inside the initializer `92` (range `[17,19)`), all
the conditions the claim requires for producing an edit hold — the
enclosing `let` statement exists, has no terminator, has an
initializer, the offset is inside the initializer's range, and there
is no newline between the offset and the initializer's start — yet
`on_eq_typed` returns `none`. -/
theorem on_eq_typed_inside_initializer_none :
    on_eq_typed exLet 18 = none ∧
    find_let_stmt_at_offset exLet 18 =
      some (9, .node .LET_STMT [.leaf .OTHER (str "let"), .leaf .WHITESPACE (str " "),
        .leaf .IDENT (str "x"), .leaf .WHITESPACE (str " "), .leaf .EQ (str "="),
        .leaf .WHITESPACE (str " "), .leaf .LITERAL (str "92")]) ∧
    has_semi (.node .LET_STMT [.leaf .OTHER (str "let"), .leaf .WHITESPACE (str " "),
        .leaf .IDENT (str "x"), .leaf .WHITESPACE (str " "), .leaf .EQ (str "="),
        .leaf .WHITESPACE (str " "), .leaf .LITERAL (str "92")]) = false ∧
    initializer 9 (.node .LET_STMT [.leaf .OTHER (str "let"), .leaf .WHITESPACE (str " "),
        .leaf .IDENT (str "x"), .leaf .WHITESPACE (str " "), .leaf .EQ (str "="),
        .leaf .WHITESPACE (str " "), .leaf .LITERAL (str "92")]) =
      some (17, .leaf .LITERAL (str "92")) ∧
    contains_offset_nonstrict ⟨17, 17 + 2⟩ 18 ∧
    hasNL (extract exLet.text 17 18) = false := by
  refine ⟨by decide, by decide, by decide, by decide, ⟨by decide, by decide⟩, by decide⟩

/-- C1 witness: in the same file with the cursor at offset 16, right
after the `=` and before the initializer, the amended conditions hold
and the edit appends `";"` at offset 19, the statement's end. -/
theorem on_eq_typed_some_iff_witness :
    on_eq_typed exLet 16 =
      some ⟨(EditBuilder.new.insert 19 (str ";")).finish, none⟩ :=
  (on_eq_typed_some_iff exLet 16
      ⟨(EditBuilder.new.insert 19 (str ";")).finish, none⟩).mpr
    ⟨9, .node .LET_STMT [.leaf .OTHER (str "let"), .leaf .WHITESPACE (str " "),
        .leaf .IDENT (str "x"), .leaf .WHITESPACE (str " "), .leaf .EQ (str "="),
        .leaf .WHITESPACE (str " "), .leaf .LITERAL (str "92")],
     by decide, by decide,
     17, .leaf .LITERAL (str "92"),
     by decide, by decide, by decide, by decide⟩

/-- C3: `on_enter` produces an edit iff the left-biased leaf at the
offset is a comment node of single-line flavor (never a block
comment), the offset is strictly after the end of the comment's
marker, and an indentation context exists; the edit then inserts
`"\n" + indent + marker + " "` at the offset and places the returned
cursor immediately after the inserted text. -/
theorem on_enter_some_iff (file : Tree) (offset : Nat) (le : LocalEdit) :
    on_enter file offset = some le ↔
    ∃ c, (find_leaf_at_offset file offset).left_biased = some c ∧
      c.kind = .COMMENT ∧ commentFlavor c.text ≠ .Multiline ∧
      c.range.lo + (commentMarker c.text).length < offset ∧
      ∃ indent, node_indent file c = some indent ∧
        le = ⟨(EditBuilder.new.insert offset
                (str "\n" ++ indent ++ commentMarker c.text ++ str " ")).finish,
              some (offset +
                (str "\n" ++ indent ++ commentMarker c.text ++ str " ").length)⟩ := by
  unfold on_enter
  cases hlb : (find_leaf_at_offset file offset).left_biased with
  | none => simp
  | some c =>
    dsimp only
    by_cases hk : c.kind = .COMMENT
    · rw [if_neg (by simp [hk])]
      by_cases hfl : commentFlavor c.text = .Multiline
      · rw [if_pos hfl]
        constructor
        · intro h
          cases h
        · rintro ⟨c1, hc1, hk1, hfl1, hoff1, ind, hni1, hle1⟩
          injection hc1 with hc1
          subst hc1
          exact absurd hfl hfl1
      · rw [if_neg hfl]
        by_cases hoff : offset < c.range.lo + (commentMarker c.text).length + 1
        · rw [if_pos hoff]
          constructor
          · intro h
            cases h
          · rintro ⟨c1, hc1, hk1, hfl1, hoff1, ind, hni1, hle1⟩
            injection hc1 with hc1
            subst hc1
            exact absurd hoff1 (by omega)
        · rw [if_neg hoff]
          cases hni : node_indent file c with
          | none =>
            constructor
            · intro h
              cases h
            · rintro ⟨c1, hc1, hk1, hfl1, hoff1, ind, hni1, hle1⟩
              injection hc1 with hc1
              subst hc1
              rw [hni] at hni1
              cases hni1
          | some indent =>
            dsimp only
            constructor
            · intro h
              injection h with h
              exact ⟨c, rfl, hk, hfl, by omega, indent, hni, h.symm⟩
            · rintro ⟨c1, hc1, hk1, hfl1, hoff1, ind, hni1, hle1⟩
              injection hc1 with hc1
              subst hc1
              rw [hni] at hni1
              injection hni1 with hni1
              subst hni1
              rw [hle1]
    · rw [if_pos hk]
      constructor
      · intro h
        cases h
      · rintro ⟨c1, hc1, hk1, hfl1, hoff1, ind, hni1, hle1⟩
        injection hc1 with hc1
        subst hc1
        exact absurd hk1 hk

/-- C3 witness: pressing Enter at the end of `/// Some docs` inserts
`"\n/// "` and puts the cursor right after it. -/
theorem on_enter_some_iff_witness :
    on_enter exDocs 13 =
      some ⟨(EditBuilder.new.insert 13 (str "\n/// ")).finish, some 18⟩ :=
  (on_enter_some_iff exDocs 13
      ⟨(EditBuilder.new.insert 13 (str "\n/// ")).finish, some 18⟩).mpr
    ⟨⟨0, .COMMENT, str "/// Some docs"⟩, by decide, by decide, by decide, by decide,
     [], by decide, by decide⟩

/-- Two half-open ranges are disjoint when one ends no later than the
other starts. -/
def rangesDisjoint (a b : TextRange) : Prop := a.hi ≤ b.lo ∨ b.hi ≤ a.lo

instance (a b : TextRange) : Decidable (rangesDisjoint a b) :=
  inferInstanceAs (Decidable (_ ∨ _))

/-- Ordering of leaf tokens: one ends no later than the other starts. -/
def LeafTok.precedes (a b : LeafTok) : Prop := a.start + a.text.length ≤ b.start

theorem withStarts_base_le (toks : List (SyntaxKind × Text)) :
    ∀ base, ∀ l ∈ withStarts base toks, base ≤ l.start := by
  induction toks with
  | nil =>
    intro base l h
    cases h
  | cons p rest ih =>
    intro base l h
    rcases List.mem_cons.mp h with rfl | h'
    · exact le_refl _
    · have := ih (base + p.2.length) l h'
      omega

theorem withStarts_pairwise (toks : List (SyntaxKind × Text)) :
    ∀ base, List.Pairwise LeafTok.precedes (withStarts base toks) := by
  induction toks with
  | nil =>
    intro base
    exact List.Pairwise.nil
  | cons p rest ih =>
    intro base
    refine List.Pairwise.cons ?_ (ih (base + p.2.length))
    intro l hl
    have := withStarts_base_le rest (base + p.2.length) l hl
    simp only [LeafTok.precedes]
    omega

theorem mem_leafCands_iff (t : Tree) (offset : Nat) (l : LeafTok) :
    l ∈ leafCands t offset ↔
      l ∈ leafToks t ∧ l.text ≠ [] ∧ contains_offset_nonstrict l.range offset := by
  simp [leafCands, List.mem_filter, decide_eq_true_eq, and_assoc]

theorem leafCands_pairwise (t : Tree) (offset : Nat) :
    List.Pairwise LeafTok.precedes (leafCands t offset) :=
  List.Pairwise.sublist (List.filter_sublist _) (withStarts_pairwise t.toks 0)

theorem leafCands_no_three (t : Tree) (offset : Nat) (l r m : LeafTok)
    (rest : List LeafTok) (h : leafCands t offset = l :: r :: m :: rest) : False := by
  have hp := leafCands_pairwise t offset
  rw [h] at hp
  obtain ⟨hlr, hp2⟩ := List.pairwise_cons.mp hp
  obtain ⟨hrm, hp3⟩ := List.pairwise_cons.mp hp2
  have h1 : LeafTok.precedes l r := hlr r (by simp)
  have h2 : LeafTok.precedes r m := hrm m (by simp)
  have hl : l ∈ leafCands t offset := by rw [h]; simp
  have hr : r ∈ leafCands t offset := by rw [h]; simp
  have hm : m ∈ leafCands t offset := by rw [h]; simp
  obtain ⟨-, hlne, hlc⟩ := (mem_leafCands_iff t offset l).mp hl
  obtain ⟨-, hrne, hrc⟩ := (mem_leafCands_iff t offset r).mp hr
  obtain ⟨-, hmne, hmc⟩ := (mem_leafCands_iff t offset m).mp hm
  simp only [contains_offset_nonstrict, LeafTok.range] at hlc hrc hmc
  simp only [LeafTok.precedes] at h1 h2
  have hrlen : 0 < r.text.length := List.length_pos.mpr hrne
  omega

theorem leafCands_two (t : Tree) (offset : Nat) (l r : LeafTok)
    (h : leafCands t offset = [l, r]) :
    l.start + l.text.length = offset ∧ r.start = offset := by
  have hp := leafCands_pairwise t offset
  rw [h] at hp
  obtain ⟨hlr, -⟩ := List.pairwise_cons.mp hp
  have h1 : LeafTok.precedes l r := hlr r (by simp)
  have hl : l ∈ leafCands t offset := by rw [h]; simp
  have hr : r ∈ leafCands t offset := by rw [h]; simp
  obtain ⟨-, hlne, hlc⟩ := (mem_leafCands_iff t offset l).mp hl
  obtain ⟨-, hrne, hrc⟩ := (mem_leafCands_iff t offset r).mp hr
  simp only [contains_offset_nonstrict, LeafTok.range] at hlc hrc
  simp only [LeafTok.precedes] at h1
  omega

theorem find_leaf_shape (t : Tree) (offset : Nat) :
    (leafCands t offset = [] ∧ find_leaf_at_offset t offset = .missing) ∨
    (∃ n, leafCands t offset = [n] ∧ find_leaf_at_offset t offset = .single n) ∨
    (∃ l r, leafCands t offset = [l, r] ∧ find_leaf_at_offset t offset = .between l r) := by
  unfold find_leaf_at_offset
  cases hc : leafCands t offset with
  | nil => exact Or.inl ⟨rfl, rfl⟩
  | cons a tl =>
    cases tl with
    | nil => exact Or.inr (Or.inl ⟨a, rfl, rfl⟩)
    | cons b bs =>
      cases bs with
      | nil => exact Or.inr (Or.inr ⟨a, b, rfl, rfl⟩)
      | cons d ds => exact absurd hc (fun hh => leafCands_no_three t offset a b d ds hh)

theorem left_biased_mem (t : Tree) (offset : Nat) (c : LeafTok)
    (h : (find_leaf_at_offset t offset).left_biased = some c) :
    c ∈ leafCands t offset := by
  rcases find_leaf_shape t offset with ⟨h1, h2⟩ | ⟨n, h1, h2⟩ | ⟨l, r, h1, h2⟩
  · rw [h2] at h
    cases h
  · rw [h2] at h
    injection h with h
    subst h
    rw [h1]
    simp
  · rw [h2] at h
    injection h with h
    subst h
    rw [h1]
    simp

theorem find_at_start (t : Tree) (c : LeafTok)
    (hmem : c ∈ leafToks t) (hne : c.text ≠ []) :
    find_leaf_at_offset t c.start = .single c ∨
    ∃ l, find_leaf_at_offset t c.start = .between l c ∧ l ∈ leafToks t ∧
      l.text ≠ [] ∧ l.start + l.text.length = c.start := by
  have hc : c ∈ leafCands t c.start :=
    (mem_leafCands_iff t c.start c).mpr
      ⟨hmem, hne, by simp [contains_offset_nonstrict, LeafTok.range]⟩
  rcases find_leaf_shape t c.start with ⟨h1, h2⟩ | ⟨n, h1, h2⟩ | ⟨l, r, h1, h2⟩
  · rw [h1] at hc
    cases hc
  · rw [h1] at hc
    rcases List.mem_singleton.mp hc with rfl
    exact Or.inl h2
  · obtain ⟨hlend, hrstart⟩ := leafCands_two t c.start l r h1
    have hcv := hc
    rw [h1] at hcv
    have hlmem : l ∈ leafCands t c.start := by rw [h1]; simp
    obtain ⟨hlt, hlne, -⟩ := (mem_leafCands_iff t c.start l).mp hlmem
    rcases List.mem_pair.mp hcv with rfl | rfl
    · exfalso
      have : 0 < c.text.length := List.length_pos.mpr hne
      omega
    · exact Or.inr ⟨l, h2, hlt, hlne, hlend⟩

/-- Reduce `on_enter` when every precondition is supplied. -/
theorem on_enter_eq_of_parts (file : Tree) (offset : Nat) (c : LeafTok) (indent : Text)
    (hlb : (find_leaf_at_offset file offset).left_biased = some c)
    (hk : c.kind = .COMMENT) (hfl : commentFlavor c.text ≠ .Multiline)
    (hoff : ¬ offset < c.range.lo + (commentMarker c.text).length + 1)
    (hni : node_indent file c = some indent) :
    on_enter file offset =
      some ⟨(EditBuilder.new.insert offset
              (str "\n" ++ indent ++ commentMarker c.text ++ str " ")).finish,
            some (offset + (str "\n" ++ indent ++ commentMarker c.text ++ str " ").length)⟩ := by
  unfold on_enter
  rw [hlb]
  dsimp only
  rw [if_neg (by simp [hk]), if_neg hfl, if_neg hoff, hni]

theorem node_indent_first_leaf (file : Tree) (c : LeafTok)
    (hmem : c ∈ leafToks file) (hne : c.text ≠ []) (h0 : c.start = 0) :
    node_indent file c = some [] := by
  rcases find_at_start file c hmem hne with hf | ⟨l, hf, hlmem, hlne, hlend⟩
  · unfold node_indent
    simp only [LeafTok.range]
    rw [hf]
    dsimp only
    rw [if_pos rfl]
  · exfalso
    have : 0 < l.text.length := List.length_pos.mpr hlne
    omega

theorem node_indent_none_cases (file : Tree) (c : LeafTok)
    (hmem : c ∈ leafToks file) (hne : c.text ≠ [])
    (h : node_indent file c = none) :
    ∃ l, find_leaf_at_offset file c.start = .between l c ∧
      l.kind ≠ .WHITESPACE ∧ l.start + l.text.length = c.start := by
  rcases find_at_start file c hmem hne with hf | ⟨l, hf, hlmem, hlne, hlend⟩
  · exfalso
    unfold node_indent at h
    simp only [LeafTok.range] at h
    rw [hf] at h
    dsimp only at h
    rw [if_pos rfl] at h
    cases h
  · refine ⟨l, hf, ?_, hlend⟩
    unfold node_indent at h
    simp only [LeafTok.range] at h
    rw [hf] at h
    dsimp only at h
    rw [if_pos rfl] at h
    by_cases hkind : l.kind ≠ .WHITESPACE
    · exact hkind
    · exfalso
      rw [if_neg hkind] at h
      cases h

/-- C10: when the single-line comment under the cursor is the very
first leaf of the file, `on_enter` does not fail for lack of an
indentation context: `node_indent` returns the empty string and the
inserted continuation is `"\n" + marker + " "` with no indentation;
and under these comment preconditions `on_enter` returns `None` only
when a leaf ending exactly at the comment's start exists and is not
whitespace. -/
theorem on_enter_first_leaf_comment (file : Tree) (offset : Nat) (c : LeafTok)
    (hlb : (find_leaf_at_offset file offset).left_biased = some c)
    (hk : c.kind = .COMMENT) (hfl : commentFlavor c.text ≠ .Multiline)
    (hoff : c.range.lo + (commentMarker c.text).length < offset) :
    (c.start = 0 →
      node_indent file c = some [] ∧
      on_enter file offset =
        some ⟨(EditBuilder.new.insert offset
                (str "\n" ++ ([] : Text) ++ commentMarker c.text ++ str " ")).finish,
              some (offset +
                (str "\n" ++ ([] : Text) ++ commentMarker c.text ++ str " ").length)⟩) ∧
    (on_enter file offset = none →
      ∃ l, find_leaf_at_offset file c.start = .between l c ∧
        l.kind ≠ .WHITESPACE ∧ l.start + l.text.length = c.start) := by
  obtain ⟨hmem, hne, hcont⟩ :=
    (mem_leafCands_iff file offset c).mp (left_biased_mem file offset c hlb)
  constructor
  · intro h0
    have hni := node_indent_first_leaf file c hmem hne h0
    exact ⟨hni,
      on_enter_eq_of_parts file offset c [] hlb hk hfl
        (by simp only [LeafTok.range] at hoff ⊢; omega) hni⟩
  · intro hnone
    have hni : node_indent file c = none := by
      by_contra hni
      obtain ⟨indent, hindent⟩ := Option.ne_none_iff_exists'.mp hni
      rw [on_enter_eq_of_parts file offset c indent hlb hk hfl
        (by simp only [LeafTok.range] at hoff ⊢; omega) hindent] at hnone
      cases hnone
    exact node_indent_none_cases file c hmem hne hni

/-- C10 witness: `//! docz` is the first leaf of its file; pressing
Enter at its end continues it as `"\n//! "` with empty indentation. -/
theorem on_enter_first_leaf_comment_witness :
    (find_leaf_at_offset exModDoc 8).left_biased =
      some ⟨0, .COMMENT, str "//! docz"⟩ ∧
    node_indent exModDoc ⟨0, .COMMENT, str "//! docz"⟩ = some [] ∧
    on_enter exModDoc 8 =
      some ⟨(EditBuilder.new.insert 8 (str "\n//! ")).finish, some 13⟩ := by
  refine ⟨by decide, ?_, ?_⟩
  · exact ((on_enter_first_leaf_comment exModDoc 8 ⟨0, .COMMENT, str "//! docz"⟩
      (by decide) (by decide) (by decide) (by decide)).1 (by decide)).1
  · have h := ((on_enter_first_leaf_comment exModDoc 8 ⟨0, .COMMENT, str "//! docz"⟩
      (by decide) (by decide) (by decide) (by decide)).1 (by decide)).2
    rw [h]
    decide

theorem nlPositions_mem : ∀ (l : Text) (pos : Nat), pos ∈ nlPositions l →
    l[pos]? = some '\n' := by
  intro l
  induction l with
  | nil =>
    intro pos h
    cases h
  | cons c rest ih =>
    intro pos h
    unfold nlPositions at h
    by_cases hc : c = '\n'
    · rw [if_pos hc] at h
      rcases List.mem_cons.mp h with rfl | h'
      · simp [hc]
      · obtain ⟨i, hi, rfl⟩ := List.mem_map.mp h'
        simpa using ih i hi
    · rw [if_neg hc] at h
      obtain ⟨i, hi, rfl⟩ := List.mem_map.mp h
      simpa using ih i hi

theorem leafInfos_text_split :
    ∀ (u : Tree) (e : LeafInfo), e ∈ u.leafInfos →
      ∃ pre post, u.text = pre ++ e.text ++ post ∧ pre.length = e.start := by
  refine @Tree.rec
    (fun u => ∀ e, e ∈ u.leafInfos →
      ∃ pre post, u.text = pre ++ e.text ++ post ∧ pre.length = e.start)
    (fun cs => ∀ (i off : Nat) (e : LeafInfo), e ∈ leafInfosList i off cs →
      ∃ pre post, textList cs = pre ++ e.text ++ post ∧ off + pre.length = e.start)
    ?_ ?_ ?_ ?_
  · intro k s e he
    unfold Tree.leafInfos at he
    rcases List.mem_singleton.mp he with rfl
    exact ⟨[], [], by simp [Tree.text], rfl⟩
  · intro k cs ih e he
    unfold Tree.leafInfos at he
    obtain ⟨pre, post, hsplit, hlen⟩ := ih 0 0 e he
    exact ⟨pre, post, by simpa [Tree.text] using hsplit, by simpa using hlen⟩
  · intro i off e he
    unfold leafInfosList at he
    cases he
  · intro c rest ihc ihrest i off e he
    unfold leafInfosList at he
    rcases List.mem_append.mp he with hmap | hrec
    · obtain ⟨e', he', rfl⟩ := List.mem_map.mp hmap
      obtain ⟨pre, post, hsplit, hlen⟩ := ihc e' he'
      refine ⟨pre, post ++ textList rest, ?_, ?_⟩
      · simp [textList, hsplit]
      · dsimp only
        omega
    · obtain ⟨pre, post, hsplit, hlen⟩ := ihrest (i+1) (off + c.len) e hrec
      refine ⟨c.text ++ pre, post, ?_, ?_⟩
      · simp [textList, hsplit]
      · simp only [List.length_append]
        simp only [Tree.len] at hlen
        omega

theorem coverGo_text_split :
    ∀ (t : Tree) (base : Nat) (range : TextRange) (F pre post : Text),
      F = pre ++ t.text ++ post → pre.length = base →
      ∃ pre2 post2, F = pre2 ++ (coverGo t base range).2.2.text ++ post2 ∧
        pre2.length = (coverGo t base range).2.1 := by
  refine @Tree.rec
    (fun t => ∀ (base : Nat) (range : TextRange) (F pre post : Text),
      F = pre ++ t.text ++ post → pre.length = base →
      ∃ pre2 post2, F = pre2 ++ (coverGo t base range).2.2.text ++ post2 ∧
        pre2.length = (coverGo t base range).2.1)
    (fun cs => ∀ (base i : Nat) (range : TextRange) (F pre post : Text),
      F = pre ++ textList cs ++ post → pre.length = base →
      ∀ res, coverScan base i cs range = some res →
      ∃ pre2 post2, F = pre2 ++ res.2.2.text ++ post2 ∧ pre2.length = res.2.1)
    ?_ ?_ ?_ ?_
  · intro k s base range F pre post hF hl
    exact ⟨pre, post, hF, hl⟩
  · intro k cs ih base range F pre post hF hl
    cases hscan : coverScan base 0 cs range with
    | none =>
      refine ⟨pre, post, ?_, ?_⟩ <;> simp [coverGo, hscan, hF, hl]
    | some res =>
      have hres := ih base 0 range F pre post (by simpa [Tree.text] using hF) hl res hscan
      simpa [coverGo, hscan] using hres
  · intro base i range F pre post hF hl res hres
    cases hres
  · intro c rest ihc ihrest base i range F pre post hF hl res hres
    unfold coverScan at hres
    by_cases hsub : is_subrange ⟨base, base + c.len⟩ range
    · rw [if_pos hsub] at hres
      rcases hcg : coverGo c base range with ⟨p1, b1, u1⟩
      rw [hcg] at hres
      dsimp only at hres
      injection hres with hres
      subst hres
      have hres2 := ihc base range F pre (textList rest ++ post)
        (by rw [hF]; simp [textList]) hl
      rw [hcg] at hres2
      exact hres2
    · rw [if_neg hsub] at hres
      refine ihrest (base + c.len) (i+1) range F (pre ++ c.text) post ?_ ?_ res hres
      · rw [hF]
        simp [textList]
      · simp only [List.length_append, Tree.len]
        omega

theorem getElem_middle (pre mid post : Text) (i : Nat) (hi : i < mid.length) :
    (pre ++ mid ++ post)[pre.length + i]? = mid[i]? := by
  rw [List.append_assoc, List.getElem?_append_right (by omega)]
  simp only [Nat.add_sub_cancel_left]
  exact List.getElem?_append_left hi

theorem processLeaf_no_newline (file : Tree) (range : TextRange) (edit : EditBuilder)
    (e : LeafInfo) (pre post : Text)
    (hsplit : file.text = pre ++ e.text ++ post) (hlen : pre.length = e.start)
    (hnl : hasNL (extract file.text range.lo range.hi) = false) :
    processLeaf file range edit e = some edit := by
  unfold processLeaf
  cases hint : intersect range ⟨e.start, e.start + e.text.length⟩ with
  | none => rfl
  | some r =>
    dsimp only
    unfold intersect at hint
    by_cases hcond : max range.lo e.start ≤ min range.hi (e.start + e.text.length)
    · rw [if_pos hcond] at hint
      injection hint with hint
      subst hint
      dsimp only
      have hf1 : e.start ≤ max range.lo e.start := Nat.le_max_right _ _
      have hf2 : range.lo ≤ max range.lo e.start := Nat.le_max_left _ _
      have hf3 : min range.hi (e.start + e.text.length) ≤ range.hi := Nat.min_le_left _ _
      have hf4 : min range.hi (e.start + e.text.length) ≤ e.start + e.text.length :=
        Nat.min_le_right _ _
      set rlo := max range.lo e.start - e.start with hrlo
      set rhi := min range.hi (e.start + e.text.length) - e.start with hrhi
      have hzero : nlPositions (extract e.text rlo rhi) = [] := by
        by_contra hne
        obtain ⟨pos, hpos⟩ := List.exists_mem_of_ne_nil _ hne
        have hget : (extract e.text rlo rhi)[pos]? = some '\n' :=
          nlPositions_mem _ pos hpos
        have hplt : pos < (extract e.text rlo rhi).length := by
          by_contra hge
          rw [List.getElem?_eq_none_iff.mpr (le_of_not_lt hge)] at hget
          cases hget
        have hlen2 : (extract e.text rlo rhi).length ≤ rhi - rlo := by
          simp only [extract]
          exact le_trans (List.length_take_le _ _) (le_refl _)
        have hlen3 : (extract e.text rlo rhi).length ≤ e.text.length - rlo := by
          simp only [extract, List.length_take, List.length_drop]
          omega
        have hget2 : e.text[rlo + pos]? = some '\n' := by
          have h1 : (extract e.text rlo rhi)[pos]? = (e.text.drop rlo)[pos]? := by
            simp only [extract]
            exact List.getElem?_take_of_lt (by omega)
          rw [h1, List.getElem?_drop] at hget
          exact hget
        have hgetF : file.text[e.start + (rlo + pos)]? = some '\n' := by
          rw [hsplit, ← hlen]
          rw [getElem_middle pre e.text post (rlo + pos) (by omega)]
          exact hget2
        have hoff_lo : range.lo ≤ e.start + (rlo + pos) := by omega
        have hoff_hi : e.start + (rlo + pos) < range.hi := by omega
        have hmem2 : '\n' ∈ extract file.text range.lo range.hi := by
          have h2 : (extract file.text range.lo range.hi)[e.start + (rlo + pos) - range.lo]? =
              some '\n' := by
            simp only [extract]
            rw [List.getElem?_take_of_lt (by omega), List.getElem?_drop]
            rw [show range.lo + (e.start + (rlo + pos) - range.lo) = e.start + (rlo + pos)
              from by omega]
            exact hgetF
          exact List.getElem?_mem h2
        rw [show hasNL (extract file.text range.lo range.hi) = true from ?_] at hnl
        · cases hnl
        · simp only [hasNL, List.any_eq_true]
          exact ⟨'\n', hmem2, by decide⟩
      rw [hzero]
      rfl
    · rw [if_neg hcond] at hint
      cases hint

theorem processLeaves_no_newline (file : Tree) (range : TextRange)
    (hnl : hasNL (extract file.text range.lo range.hi) = false) :
    ∀ (infos : List LeafInfo),
      (∀ e ∈ infos, ∃ pre post, file.text = pre ++ e.text ++ post ∧ pre.length = e.start) →
      ∀ edit, processLeaves file range edit infos = some edit := by
  intro infos
  induction infos with
  | nil =>
    intro _ edit
    rfl
  | cons e rest ih =>
    intro hinfos edit
    obtain ⟨pre, post, hsplit, hlen⟩ := hinfos e (List.mem_cons_self e rest)
    unfold processLeaves
    rw [processLeaf_no_newline file range edit e pre post hsplit hlen hnl]
    exact ih (fun e' he' => hinfos e' (List.mem_cons_of_mem _ he')) edit

/-- C4: with an empty input range `join_lines` targets the first
newline scanning forward from that position (and is a no-op edit with
no cursor change when none exists); a non-empty range is used as-is,
and whenever it contains no newline the returned edit is empty and
applying it leaves the text unchanged. -/
theorem join_lines_no_newline_noop (file : Tree) (range : TextRange) :
    (range.lo = range.hi →
      (idxOfNL (file.text.drop range.lo) = none →
        join_lines file range = some ⟨⟨[]⟩, none⟩) ∧
      (∀ pos, idxOfNL (file.text.drop range.lo) = some pos →
        join_lines file range =
          join_lines file ⟨range.lo + pos, range.lo + pos + 1⟩)) ∧
    (range.lo < range.hi →
      hasNL (extract file.text range.lo range.hi) = false →
      join_lines file range = some ⟨⟨[]⟩, none⟩ ∧
      Edit.apply ⟨[]⟩ file.text = file.text) := by
  constructor
  · intro hemp
    have hie : range.isEmpty = true := by
      simp [TextRange.isEmpty, hemp]
    constructor
    · intro hno
      unfold join_lines
      rw [if_pos hie, hno]
      rfl
    · intro pos hpos
      have hie2 : ¬ ((⟨range.lo + pos, range.lo + pos + 1⟩ : TextRange).isEmpty = true) := by
        simp [TextRange.isEmpty]
      conv_lhs => unfold join_lines
      conv_rhs => unfold join_lines
      rw [if_pos hie, hpos, if_neg hie2]
  · intro hlt hnl
    refine ⟨?_, rfl⟩
    unfold join_lines
    have hie : ¬ (range.isEmpty = true) := by
      simp only [TextRange.isEmpty, beq_iff_eq]
      omega
    rw [if_neg hie]
    dsimp only
    rcases hcov : find_covering_node file range with ⟨cpath, cbase, cnode⟩
    have hsplitC : ∃ pre2 post2, file.text = pre2 ++ cnode.text ++ post2 ∧
        pre2.length = cbase := by
      have h0 := coverGo_text_split file 0 range file.text [] []
        (by simp) rfl
      unfold find_covering_node at hcov
      rw [hcov] at h0
      exact h0
    obtain ⟨preC, postC, hsplitC, hlenC⟩ := hsplitC
    have hinfos : ∀ e ∈ cnode.leafInfos.map
        (fun e => (⟨cpath ++ e.path, cbase + e.start, e.kind, e.text⟩ : LeafInfo)),
        ∃ pre post, file.text = pre ++ e.text ++ post ∧ pre.length = e.start := by
      intro e he
      obtain ⟨e', he', rfl⟩ := List.mem_map.mp he
      obtain ⟨pre', post', hsplit', hlen'⟩ := leafInfos_text_split cnode e' he'
      refine ⟨preC ++ pre', post' ++ postC, ?_, ?_⟩
      · rw [hsplitC, hsplit']
        simp
      · show (preC ++ pre').length = cbase + e'.start
        simp only [List.length_append]
        omega
    rw [processLeaves_no_newline file range hnl _ hinfos EditBuilder.new]
    rfl

/-- C4 witness: the range `[0,4)` of `foo(1,\n    )` covers only
`foo(` and contains no newline: the edit is empty. -/
theorem join_lines_no_newline_noop_witness :
    0 < 4 ∧ hasNL (extract exComma.text 0 4) = false ∧
    join_lines exComma ⟨0, 4⟩ = some ⟨⟨[]⟩, none⟩ ∧
    Edit.apply ⟨[]⟩ exComma.text = exComma.text :=
  ⟨by decide, by decide,
   ((join_lines_no_newline_noop exComma ⟨0, 4⟩).2 (by decide) (by decide)).1,
   ((join_lines_no_newline_noop exComma ⟨0, 4⟩).2 (by decide) (by decide)).2⟩

/-- C9: `join_lines` on the file `\nfn f() {}` with the cursor at
offset 0 panics — the leading whitespace token holds exactly one
newline, so `remove_newline` reaches `prev_sibling().unwrap()` on a
node that has no previous sibling (the panic is modelled as `none`),
contradicting the contract that every operation returns a value. -/
theorem join_lines_leading_newline_panics : join_lines exLead ⟨0, 0⟩ = none := by
  decide

/-- C5: on the file `// a\n/* b\n  */`, joining the whole range makes
the comment-splicing rule insert `"/*"` at offset 10, strictly inside
the range `[9,12)` that the boundary rule later records for the
newline inside the block comment: the returned edit's operations are
not pairwise disjoint. -/
theorem join_lines_emits_overlapping_atoms :
    join_lines exSplice ⟨0, 14⟩ =
      some ⟨⟨[⟨⟨4, 7⟩, []⟩, ⟨⟨9, 12⟩, str " "⟩, ⟨⟨10, 10⟩, str "/*"⟩]⟩, none⟩ ∧
    ¬ rangesDisjoint ⟨9, 12⟩ ⟨10, 10⟩ := by
  constructor
  · decide
  · decide

end RaTyping
